import Mathlib

/-!
Shallow embedding of the Consensus Fetch Engine of the wallet repository.

The embedded code is the two-level consensus fetch
src/mods/background/service_worker/entities/wallets/data.ts, function
tryEthereumFetch (with its inner runWithPoolOrThrow and runWithConnOrThrow),
and the exclusion-based retry variant of
src/mods/background/content_script/index.ts.

Modelling decisions, each mirroring the JavaScript semantics the code uses:
- a settled promise (PromiseSettledResult) is the inductive Settled: fulfilled
  with a value or rejected with a reason;
- a JS Map is an insertion-ordered association list; Map.set replaces the
  value in place when the key is present and appends otherwise; Map.get finds
  the first entry with the key;
- JSON.stringify of a payload is an abstract key function keyOf, so two
  payloads are the same answer exactly when their keys are equal;
- Promise.allSettled keeps array order; Promise.any of a list of already
  settled promises yields the first fulfilled value in array order, and an
  AggregateError when every promise rejected;
- Array.prototype.sort is a stable sort, modeled by stable insertion sort;
- network transports are oracles: each connection index maps to the settled
  outcome of its send.
-/

set_option maxHeartbeats 1000000

namespace Wallet

/-- Outcome of one settled promise, mirroring PromiseSettledResult: a
fulfilled value or a rejection reason. -/
inductive Settled (V : Type) (ε : Type) where
  | fulfilled (value : V)
  | rejected (reason : ε)
deriving DecidableEq

/-- Errors thrown inside tryEthereumFetch and caught at the boundary by
Result.runAndDoubleWrap: the directory lookup failure (line 197), the
AggregateError of Promise.any when every candidate rejected, the thrown
Error of an ambiguous vote (lines 273 and 313), and the non-null assertion
on the fetcheds map (lines 276 and 316, proven unreachable below). -/
inductive FetchError where
  | noCircuits
  | aggregateError
  | couldNotChooseTruth
  | undefinedMapAccess
deriving DecidableEq

/-- Lookup in a JS Map modeled as an insertion-ordered association list:
the first entry carrying the key, if any. -/
def mapGet {K V : Type} [DecidableEq K] : List (K × V) → K → Option V
  | [], _ => none
  | e :: l, k => if e.1 = k then some e.2 else mapGet l k

/-- JS Map.set: replace the value in place when the key is present, append a
fresh entry otherwise. -/
def mapSet {K V : Type} [DecidableEq K] : List (K × V) → K → V → List (K × V)
  | [], k, v => [(k, v)]
  | e :: l, k, v => if e.1 = k then (k, v) :: l else e :: mapSet l k v

/-- One step of the tallying loop of data.ts lines 245-252 and 285-292: a
rejected result is skipped; a fulfilled result bumps the counter stored
under its canonical key and records itself as the representative for that
key. -/
def tallyStep {V K ε : Type} [DecidableEq K] (keyOf : V → K)
    (st : List (K × Nat) × List (K × V)) (r : Settled V ε) :
    List (K × Nat) × List (K × V) :=
  match r with
  | .rejected _ => st
  | .fulfilled value =>
    let raw := keyOf value
    let previous := (mapGet st.1 raw).getD 0
    (mapSet st.1 raw (previous + 1), mapSet st.2 raw value)

/-- The counters and fetcheds maps built by one consensus round over a list
of settled results (data.ts lines 242-252 and 282-292). -/
def tally {V K ε : Type} [DecidableEq K] (keyOf : V → K)
    (results : List (Settled V ε)) : List (K × Nat) × List (K × V) :=
  results.foldl (tallyStep keyOf) ([], [])

/-- Promise.any over a list of already settled promises: the first fulfilled
value in array order, or an AggregateError when all rejected. -/
def promiseAny {V ε : Type} : List (Settled V ε) → Except FetchError V
  | [] => .error .aggregateError
  | .fulfilled v :: _ => .ok v
  | .rejected _ :: rest => promiseAny rest

/-- Stable descending insertion by occurrence count, the building block of
the sort comparator (a, b) => b.value - a.value on counter entries. -/
def insertByCountDesc {K : Type} (e : K × Nat) : List (K × Nat) → List (K × Nat)
  | [] => [e]
  | f :: l => if f.2 ≤ e.2 then e :: f :: l else f :: insertByCountDesc e l

/-- Stable sort of counter entries by descending occurrence count, modelling
the stable Array.prototype.sort of data.ts lines 266 and 306. -/
def sortByCountDesc {K : Type} : List (K × Nat) → List (K × Nat)
  | [] => []
  | e :: l => insertByCountDesc e (sortByCountDesc l)

/-- The vote taken when at least two distinct truths were tallied (data.ts
lines 266-276 and 306-316): on a tie between the top two counts throw the
could-not-choose-truth error, otherwise return the representative recorded
for the top key. The fallthrough arms model the non-null assertion of
fetcheds.get(sorteds[0].key)! and are proven unreachable. -/
def pickTruth {K V : Type} [DecidableEq K] (fetcheds : List (K × V))
    (sorteds : List (K × Nat)) : Except FetchError V :=
  match sorteds with
  | e0 :: e1 :: _ =>
    if e0.2 = e1.2 then .error .couldNotChooseTruth
    else
      match mapGet fetcheds e0.1 with
      | some v => .ok v
      | none => .error .undefinedMapAccess
  | _ => .error .undefinedMapAccess

/-- One consensus round, the tally-and-vote logic applied identically at the
intra-circuit level (data.ts lines 239-276) and the inter-circuit level
(lines 279-316): tally the fulfilled results; with fewer than two distinct
truths defer to Promise.any over the same promises; otherwise sort the
tallies by descending count and vote. -/
def consensusRound {V K ε : Type} [DecidableEq K] (keyOf : V → K)
    (results : List (Settled V ε)) : Except FetchError V :=
  let t := tally keyOf results
  if t.1.length < 2 then promiseAny results
  else pickTruth t.2 (sortByCountDesc t.1)

/-- The connections of one circuit, as the engine sees them: a fixed
capacity, and for each index the settled outcome of runWithConnOrThrow at
that index (the pool slot access composed with the transport send, which is
external network behaviour). -/
structure ConnPool (V ε : Type) where
  capacity : Nat
  connOutcome : Nat → Settled V ε

/-- The directory entry for one chain (brume[chainId]): a fixed capacity of
circuit pools, where the slot access pools.tryGet(i) itself may fail. -/
structure EthBrumeEntry (V ε : Type) where
  capacity : Nat
  poolAt : Nat → Except ε (ConnPool V ε)

/-- The outcomes collected for one circuit: Array.from of length
pool.capacity applied to runWithConnOrThrow, then Promise.allSettled
(data.ts lines 239-240). -/
def intraCircuitInputs {V ε : Type} (pool : ConnPool V ε) : List (Settled V ε) :=
  (List.range pool.capacity).map pool.connOutcome

/-- runWithPoolOrThrow (data.ts lines 199-277): resolve the pool slot, then
run an intra-circuit consensus round over that circuit's connection
outcomes; every failure rejects the circuit's promise. -/
def runWithPoolOrThrow {V K ε : Type} [DecidableEq K] (keyOf : V → K)
    (entry : EthBrumeEntry V ε) (i : Nat) : Except (ε ⊕ FetchError) V :=
  match entry.poolAt i with
  | .error e => .error (Sum.inl e)
  | .ok pool =>
    match consensusRound keyOf (intraCircuitInputs pool) with
    | .ok v => .ok v
    | .error e => .error (Sum.inr e)

/-- A promise view of a finished Except computation: ok fulfills, error
rejects. -/
def settleOfExcept {V ε : Type} : Except ε V → Settled V ε
  | .ok v => .fulfilled v
  | .error e => .rejected e

/-- The circuit-level outcomes fed to the inter-circuit consensus round:
Array.from of length pools.capacity applied to runWithPoolOrThrow, then
Promise.allSettled (data.ts lines 279-280). -/
def interCircuitInputs {V K ε : Type} [DecidableEq K] (keyOf : V → K)
    (entry : EthBrumeEntry V ε) : List (Settled V (ε ⊕ FetchError)) :=
  (List.range entry.capacity).map fun i => settleOfExcept (runWithPoolOrThrow keyOf entry i)

/-- The body of tryEthereumFetch before the runAndDoubleWrap boundary
(data.ts lines 193-317): unwrap the directory entry for the chain (line
197, throwing when absent), then run the two-level fan-out and the
inter-circuit consensus round. -/
def tryEthereumFetchOrThrow {V K ε : Type} [DecidableEq K] (keyOf : V → K)
    (entry : Option (EthBrumeEntry V ε)) : Except FetchError V :=
  match entry with
  | none => .error .noCircuits
  | some pools => consensusRound keyOf (interCircuitInputs keyOf pools)

/-- The Result type of the hazae41 result library as used at the boundary:
Ok with a value or Err with an error. -/
inductive JSResult (ε V : Type) where
  | ok (value : V)
  | err (reason : ε)
deriving DecidableEq

/-- Result.runAndDoubleWrap: run the body and catch anything it throws into
the Err branch of a returned Result. -/
def runAndDoubleWrap {V : Type} : Except FetchError V → JSResult FetchError V
  | .ok v => .ok v
  | .error e => .err e

/-- The public operation tryEthereumFetch (data.ts lines 192-318): the
orchestrated two-level consensus fetch wrapped by runAndDoubleWrap. -/
def tryEthereumFetch {V K ε : Type} [DecidableEq K] (keyOf : V → K)
    (entry : Option (EthBrumeEntry V ε)) : JSResult FetchError V :=
  runAndDoubleWrap (tryEthereumFetchOrThrow keyOf entry)

/-- The successful payloads of a list of settled results, in order. -/
def fulfilledValues {V ε : Type} : List (Settled V ε) → List V :=
  List.filterMap fun r =>
    match r with
    | .fulfilled v => some v
    | .rejected _ => none

/-- The number of fulfilled results whose payload carries the canonical key
k: the occurrence count the tally assigns to k. -/
def keyCount {V K ε : Type} [DecidableEq K] (keyOf : V → K)
    (results : List (Settled V ε)) (k : K) : Nat :=
  (fulfilledValues results).countP fun v => decide (keyOf v = k)

section MapLemmas

variable {K V : Type} [DecidableEq K]

theorem mapGet_mapSet_self (m : List (K × V)) (k : K) (v : V) :
    mapGet (mapSet m k v) k = some v := by
  induction m with
  | nil => simp [mapGet, mapSet]
  | cons e l ih =>
    by_cases h : e.1 = k
    · simp [mapGet, mapSet, h]
    · simp [mapGet, mapSet, h, ih]

theorem mapGet_mapSet_ne (m : List (K × V)) {k k' : K} (v : V) (h : k' ≠ k) :
    mapGet (mapSet m k v) k' = mapGet m k' := by
  have h2 : ¬ k = k' := fun hk => h hk.symm
  induction m with
  | nil => simp [mapGet, mapSet, h2]
  | cons e l ih =>
    by_cases he : e.1 = k
    · simp [mapGet, mapSet, he, h2, h]
    · by_cases he' : e.1 = k'
      · simp [mapGet, mapSet, he, he', h, h2]
      · simp [mapGet, mapSet, he, he', ih]

theorem mapGet_isSome_iff_mem (m : List (K × V)) (k : K) :
    (mapGet m k).isSome ↔ k ∈ m.map Prod.fst := by
  induction m with
  | nil => simp [mapGet]
  | cons e l ih =>
    by_cases h : e.1 = k
    · simp [mapGet, h]
    · have h2 : ¬ k = e.1 := fun hk => h hk.symm
      simp [mapGet, h, h2, ih]

theorem keys_mapSet (m : List (K × V)) (k : K) (v : V) :
    (mapSet m k v).map Prod.fst =
      if (mapGet m k).isSome then m.map Prod.fst else m.map Prod.fst ++ [k] := by
  induction m with
  | nil => simp [mapGet, mapSet]
  | cons e l ih =>
    by_cases h : e.1 = k
    · simp [mapGet, mapSet, h]
    · simp only [mapSet, h, if_neg, not_false_iff, List.map_cons, mapGet]
      rw [ih]
      by_cases hs : (mapGet l k).isSome <;> simp [hs]

theorem mem_of_mapGet_eq_some {m : List (K × V)} {k : K} {v : V}
    (h : mapGet m k = some v) : (k, v) ∈ m := by
  induction m with
  | nil => simp [mapGet] at h
  | cons e l ih =>
    by_cases he : e.1 = k
    · simp only [mapGet, he, if_pos] at h
      cases h
      have he2 : (k, e.2) = e := by
        rw [← he]
      rw [he2]
      exact List.mem_cons_self _ _
    · simp only [mapGet, he, if_neg, not_false_iff] at h
      exact List.mem_cons_of_mem _ (ih h)

theorem mapGet_eq_some_of_mem {m : List (K × V)} {k : K} {v : V}
    (hnd : (m.map Prod.fst).Nodup) (h : (k, v) ∈ m) : mapGet m k = some v := by
  induction m with
  | nil => simp at h
  | cons e l ih =>
    simp only [List.map_cons, List.nodup_cons] at hnd
    rcases List.mem_cons.mp h with h | h
    · subst h
      simp [mapGet]
    · have hk : e.1 ≠ k := by
        intro he
        exact hnd.1 (he ▸ (List.mem_map.mpr ⟨(k, v), h, rfl⟩))
      simp [mapGet, hk, ih hnd.2 h]

end MapLemmas

section CountLemmas

variable {V K ε : Type} [DecidableEq K] (keyOf : V → K)

theorem fulfilledValues_append (l1 l2 : List (Settled V ε)) :
    fulfilledValues (l1 ++ l2) = fulfilledValues l1 ++ fulfilledValues l2 := by
  simp [fulfilledValues]

theorem keyCount_append (l1 l2 : List (Settled V ε)) (k : K) :
    keyCount keyOf (l1 ++ l2) k = keyCount keyOf l1 k + keyCount keyOf l2 k := by
  simp [keyCount, fulfilledValues_append, List.countP_append]

theorem keyCount_single_rejected (e : ε) (k : K) :
    keyCount keyOf ([Settled.rejected e] : List (Settled V ε)) k = 0 := by
  simp [keyCount, fulfilledValues, List.filterMap_cons]

theorem keyCount_single_fulfilled (w : V) (k : K) :
    keyCount keyOf ([Settled.fulfilled w] : List (Settled V ε)) k =
      if keyOf w = k then 1 else 0 := by
  by_cases h : keyOf w = k <;>
    simp [keyCount, fulfilledValues, List.filterMap_cons, List.countP_cons, h]

theorem mem_fulfilledValues {v : V} {os : List (Settled V ε)} :
    v ∈ fulfilledValues os ↔ Settled.fulfilled v ∈ os := by
  constructor
  · intro h
    rcases List.mem_filterMap.mp h with ⟨r, hr, he⟩
    cases r with
    | fulfilled w => cases he; exact hr
    | rejected e => simp at he
  · intro h
    exact List.mem_filterMap.mpr ⟨Settled.fulfilled v, h, rfl⟩

theorem keyCount_pos_of_mem {v : V} {os : List (Settled V ε)}
    (h : Settled.fulfilled v ∈ os) : 0 < keyCount keyOf os (keyOf v) := by
  apply List.countP_pos_iff.mpr
  exact ⟨v, mem_fulfilledValues.mpr h, by simp⟩

theorem exists_mem_of_keyCount_pos {k : K} {os : List (Settled V ε)}
    (h : 0 < keyCount keyOf os k) :
    ∃ v, Settled.fulfilled v ∈ os ∧ keyOf v = k := by
  rcases List.countP_pos_iff.mp h with ⟨v, hv, hp⟩
  exact ⟨v, mem_fulfilledValues.mp hv, by simpa using hp⟩

theorem keyCount_eq_zero_of_no_fulfilled {os : List (Settled V ε)}
    (h : ∀ o ∈ os, ∃ e, o = Settled.rejected e) (k : K) :
    keyCount keyOf os k = 0 := by
  by_contra hne
  rcases exists_mem_of_keyCount_pos keyOf (Nat.pos_of_ne_zero hne) with ⟨v, hv, _⟩
  rcases h _ hv with ⟨e, he⟩
  cases he

theorem keyCount_perm {os1 os2 : List (Settled V ε)} (h : os1.Perm os2) (k : K) :
    keyCount keyOf os1 k = keyCount keyOf os2 k := by
  exact (h.filterMap _).countP_eq _

end CountLemmas

section PromiseAnyLemmas

variable {V ε : Type}

theorem promiseAny_error_of_no_fulfilled {os : List (Settled V ε)}
    (h : ∀ o ∈ os, ∃ e, o = Settled.rejected e) :
    promiseAny os = .error .aggregateError := by
  induction os with
  | nil => rfl
  | cons o rest ih =>
    cases o with
    | fulfilled v =>
      rcases h _ (List.mem_cons_self _ _) with ⟨e, he⟩
      cases he
    | rejected e =>
      exact ih fun o ho => h o (List.mem_cons_of_mem _ ho)

theorem promiseAny_ok_mem {os : List (Settled V ε)} {v : V}
    (h : promiseAny os = .ok v) : Settled.fulfilled v ∈ os := by
  induction os with
  | nil => simp [promiseAny] at h
  | cons o rest ih =>
    cases o with
    | fulfilled w =>
      simp only [promiseAny, Except.ok.injEq] at h
      subst h
      exact List.mem_cons_self _ _
    | rejected e =>
      exact List.mem_cons_of_mem _ (ih h)

theorem promiseAny_ok_of_mem {os : List (Settled V ε)} {v : V}
    (h : Settled.fulfilled v ∈ os) : ∃ w, promiseAny os = .ok w := by
  induction os with
  | nil => simp at h
  | cons o rest ih =>
    cases o with
    | fulfilled w => exact ⟨w, rfl⟩
    | rejected e =>
      rcases List.mem_cons.mp h with h | h
      · cases h
      · exact ih h

end PromiseAnyLemmas

section TallyLemmas

variable {V K ε : Type} [DecidableEq K]

theorem tally_spec (keyOf : V → K) (os : List (Settled V ε)) :
    (∀ k, mapGet (tally keyOf os).1 k =
        if 0 < keyCount keyOf os k then some (keyCount keyOf os k) else none)
    ∧ ((tally keyOf os).1.map Prod.fst).Nodup
    ∧ (∀ k v, mapGet (tally keyOf os).2 k = some v →
        keyOf v = k ∧ Settled.fulfilled v ∈ os)
    ∧ (∀ k, (mapGet (tally keyOf os).2 k).isSome ↔ 0 < keyCount keyOf os k) := by
  induction os using List.reverseRecOn with
  | nil =>
    refine ⟨?_, ?_, ?_, ?_⟩ <;> simp [tally, mapGet, keyCount, fulfilledValues]
  | append_singleton os o ih =>
    obtain ⟨ih1, ih2, ih3, ih4⟩ := ih
    have hstep : tally keyOf (os ++ [o]) = tallyStep keyOf (tally keyOf os) o := by
      simp [tally, List.foldl_append]
    cases o with
    | rejected e =>
      have hkc : ∀ k, keyCount keyOf (os ++ [Settled.rejected e]) k =
          keyCount keyOf os k := by
        intro k
        rw [keyCount_append, keyCount_single_rejected]
        omega
      rw [hstep]
      simp only [tallyStep]
      refine ⟨?_, ih2, ?_, ?_⟩
      · intro k
        rw [hkc k]
        exact ih1 k
      · intro k v hv
        obtain ⟨h1, h2⟩ := ih3 k v hv
        exact ⟨h1, List.mem_append.mpr (Or.inl h2)⟩
      · intro k
        rw [hkc k]
        exact ih4 k
    | fulfilled w =>
      have hkc : ∀ k, keyCount keyOf (os ++ [Settled.fulfilled w]) k =
          keyCount keyOf os k + (if keyOf w = k then 1 else 0) := by
        intro k
        rw [keyCount_append, keyCount_single_fulfilled]
      have hprev : (mapGet (tally keyOf os).1 (keyOf w)).getD 0 =
          keyCount keyOf os (keyOf w) := by
        rw [ih1 (keyOf w)]
        by_cases h : 0 < keyCount keyOf os (keyOf w)
        · simp [h]
        · simp only [h, if_false, Option.getD_none]
          omega
      rw [hstep]
      simp only [tallyStep, hprev]
      refine ⟨?_, ?_, ?_, ?_⟩
      · intro k
        rw [hkc k]
        by_cases hk : keyOf w = k
        · subst hk
          rw [mapGet_mapSet_self]
          simp
        · have hk2 : k ≠ keyOf w := fun hh => hk hh.symm
          rw [mapGet_mapSet_ne _ _ hk2]
          simp only [hk, if_false, Nat.add_zero]
          exact ih1 k
      · rw [keys_mapSet]
        by_cases hs : (mapGet (tally keyOf os).1 (keyOf w)).isSome
        · simp [hs, ih2]
        · have hnm : keyOf w ∉ (tally keyOf os).1.map Prod.fst := fun hmem =>
            hs ((mapGet_isSome_iff_mem _ _).mpr hmem)
          simp [hs, List.nodup_append, ih2, hnm]
      · intro k v hv
        by_cases hk : keyOf w = k
        · subst hk
          rw [mapGet_mapSet_self] at hv
          cases hv
          exact ⟨rfl, List.mem_append.mpr (Or.inr (List.mem_singleton_self _))⟩
        · have hk2 : k ≠ keyOf w := fun hh => hk hh.symm
          rw [mapGet_mapSet_ne _ _ hk2] at hv
          obtain ⟨h1, h2⟩ := ih3 k v hv
          exact ⟨h1, List.mem_append.mpr (Or.inl h2)⟩
      · intro k
        rw [hkc k]
        by_cases hk : keyOf w = k
        · subst hk
          rw [mapGet_mapSet_self]
          simp
        · have hk2 : k ≠ keyOf w := fun hh => hk hh.symm
          rw [mapGet_mapSet_ne _ _ hk2]
          simp only [hk, if_false, Nat.add_zero]
          exact ih4 k

theorem tally_counters_get (keyOf : V → K) (os : List (Settled V ε)) (k : K) :
    mapGet (tally keyOf os).1 k =
      if 0 < keyCount keyOf os k then some (keyCount keyOf os k) else none :=
  (tally_spec keyOf os).1 k

theorem tally_keys_nodup (keyOf : V → K) (os : List (Settled V ε)) :
    ((tally keyOf os).1.map Prod.fst).Nodup :=
  (tally_spec keyOf os).2.1

theorem tally_fetcheds_mem (keyOf : V → K) (os : List (Settled V ε)) {k : K} {v : V}
    (h : mapGet (tally keyOf os).2 k = some v) :
    keyOf v = k ∧ Settled.fulfilled v ∈ os :=
  (tally_spec keyOf os).2.2.1 k v h

theorem tally_fetcheds_isSome (keyOf : V → K) (os : List (Settled V ε)) (k : K) :
    (mapGet (tally keyOf os).2 k).isSome ↔ 0 < keyCount keyOf os k :=
  (tally_spec keyOf os).2.2.2 k

theorem mem_counters_spec (keyOf : V → K) (os : List (Settled V ε)) {k : K} {n : Nat}
    (h : (k, n) ∈ (tally keyOf os).1) :
    n = keyCount keyOf os k ∧ 0 < keyCount keyOf os k := by
  have hg : mapGet (tally keyOf os).1 k = some n :=
    mapGet_eq_some_of_mem (tally_keys_nodup keyOf os) h
  rw [tally_counters_get] at hg
  by_cases hp : 0 < keyCount keyOf os k
  · rw [if_pos hp] at hg
    cases hg
    exact ⟨rfl, hp⟩
  · rw [if_neg hp] at hg
    cases hg

theorem counters_mem_of_pos (keyOf : V → K) (os : List (Settled V ε)) {k : K}
    (h : 0 < keyCount keyOf os k) :
    (k, keyCount keyOf os k) ∈ (tally keyOf os).1 := by
  apply mem_of_mapGet_eq_some
  rw [tally_counters_get, if_pos h]

theorem mem_counters_keys_iff (keyOf : V → K) (os : List (Settled V ε)) (k : K) :
    k ∈ (tally keyOf os).1.map Prod.fst ↔ 0 < keyCount keyOf os k := by
  rw [← mapGet_isSome_iff_mem, tally_counters_get]
  by_cases hp : 0 < keyCount keyOf os k <;> simp [hp]

theorem two_le_length_of_mem {α : Type} [DecidableEq α] {l : List α} {a b : α}
    (hnd : l.Nodup) (ha : a ∈ l) (hb : b ∈ l) (hab : a ≠ b) : 2 ≤ l.length := by
  have hsub : ({a, b} : Finset α) ⊆ l.toFinset := by
    intro x hx
    simp only [Finset.mem_insert, Finset.mem_singleton] at hx
    rcases hx with h | h <;> subst h <;> simpa [List.mem_toFinset]
  calc 2 = ({a, b} : Finset α).card := (Finset.card_pair hab).symm
    _ ≤ l.toFinset.card := Finset.card_le_card hsub
    _ = l.length := List.toFinset_card_of_nodup hnd

theorem counters_two_le_length (keyOf : V → K) (os : List (Settled V ε)) {k1 k2 : K}
    (hne : k1 ≠ k2) (h1 : 0 < keyCount keyOf os k1) (h2 : 0 < keyCount keyOf os k2) :
    2 ≤ (tally keyOf os).1.length := by
  have hl : ((tally keyOf os).1.map Prod.fst).length = (tally keyOf os).1.length :=
    List.length_map _ _
  rw [← hl]
  exact two_le_length_of_mem (tally_keys_nodup keyOf os)
    ((mem_counters_keys_iff keyOf os k1).mpr h1)
    ((mem_counters_keys_iff keyOf os k2).mpr h2) hne

theorem counters_length_lt_two (keyOf : V → K) (os : List (Settled V ε))
    (h : ∀ k1 k2, 0 < keyCount keyOf os k1 → 0 < keyCount keyOf os k2 → k1 = k2) :
    (tally keyOf os).1.length < 2 := by
  by_contra hge
  push_neg at hge
  rcases hc : (tally keyOf os).1 with _ | ⟨e0, _ | ⟨e1, rest⟩⟩
  · rw [hc] at hge
    simp at hge
  · rw [hc] at hge
    simp at hge
  · have he0 : (e0.1, e0.2) ∈ (tally keyOf os).1 := by
      rw [hc]
      exact List.mem_cons_self _ _
    have he1 : (e1.1, e1.2) ∈ (tally keyOf os).1 := by
      rw [hc]
      exact List.mem_cons_of_mem _ (List.mem_cons_self _ _)
    have hp0 := (mem_counters_spec keyOf os he0).2
    have hp1 := (mem_counters_spec keyOf os he1).2
    have hnd := tally_keys_nodup keyOf os
    rw [hc] at hnd
    simp only [List.map_cons, List.nodup_cons, List.mem_cons] at hnd
    exact hnd.1 (Or.inl (h e0.1 e1.1 hp0 hp1))

end TallyLemmas

section SortLemmas

variable {K : Type}

theorem insertByCountDesc_perm (e : K × Nat) (l : List (K × Nat)) :
    (insertByCountDesc e l).Perm (e :: l) := by
  induction l with
  | nil => simp [insertByCountDesc]
  | cons f l ih =>
    by_cases h : f.2 ≤ e.2
    · simp [insertByCountDesc, h]
    · simp only [insertByCountDesc, h, if_false]
      exact List.Perm.trans (ih.cons f) (List.Perm.swap e f l)

theorem sortByCountDesc_perm (l : List (K × Nat)) :
    (sortByCountDesc l).Perm l := by
  induction l with
  | nil => simp [sortByCountDesc]
  | cons e l ih =>
    exact (insertByCountDesc_perm e (sortByCountDesc l)).trans (ih.cons e)

theorem insertByCountDesc_pairwise (e : K × Nat) {l : List (K × Nat)}
    (h : l.Pairwise fun a b => b.2 ≤ a.2) :
    (insertByCountDesc e l).Pairwise fun a b => b.2 ≤ a.2 := by
  induction l with
  | nil => simp [insertByCountDesc]
  | cons f l ih =>
    rw [List.pairwise_cons] at h
    obtain ⟨h1, h2⟩ := h
    by_cases hc : f.2 ≤ e.2
    · simp only [insertByCountDesc, hc, if_true]
      rw [List.pairwise_cons]
      refine ⟨?_, ?_⟩
      · intro x hx
        rcases List.mem_cons.mp hx with hx | hx
        · subst hx
          exact hc
        · exact le_trans (h1 x hx) hc
      · rw [List.pairwise_cons]
        exact ⟨h1, h2⟩
    · simp only [insertByCountDesc, hc, if_false]
      rw [List.pairwise_cons]
      refine ⟨?_, ih h2⟩
      intro x hx
      have hx2 : x ∈ e :: l := ((insertByCountDesc_perm e l).mem_iff).mp hx
      rcases List.mem_cons.mp hx2 with hx2 | hx2
      · subst hx2
        exact le_of_lt (lt_of_not_le hc)
      · exact h1 x hx2

theorem sortByCountDesc_pairwise (l : List (K × Nat)) :
    (sortByCountDesc l).Pairwise fun a b => b.2 ≤ a.2 := by
  induction l with
  | nil => simp [sortByCountDesc]
  | cons e l ih => exact insertByCountDesc_pairwise e ih

end SortLemmas

section ConsensusLemmas

variable {V K ε : Type} [DecidableEq K]

theorem consensusRound_all_rejected (keyOf : V → K) {os : List (Settled V ε)}
    (h : ∀ o ∈ os, ∃ e, o = Settled.rejected e) :
    consensusRound keyOf os = .error .aggregateError := by
  have hlt : (tally keyOf os).1.length < 2 := by
    apply counters_length_lt_two keyOf os
    intro k1 k2 h1 h2
    exfalso
    have := keyCount_eq_zero_of_no_fulfilled keyOf h k1
    omega
  simp only [consensusRound]
  rw [if_pos hlt]
  exact promiseAny_error_of_no_fulfilled h

theorem consensusRound_ok_of_strict_max (keyOf : V → K) {os : List (Settled V ε)}
    {k : K} (hk : 0 < keyCount keyOf os k)
    (hmax : ∀ kp, kp ≠ k → keyCount keyOf os kp < keyCount keyOf os k) :
    ∃ v, consensusRound keyOf os = .ok v ∧ keyOf v = k := by
  by_cases hex : ∃ kp, kp ≠ k ∧ 0 < keyCount keyOf os kp
  · obtain ⟨kp, hkp, hkpos⟩ := hex
    have hlen : 2 ≤ (tally keyOf os).1.length :=
      counters_two_le_length keyOf os hkp hkpos hk
    have hperm := sortByCountDesc_perm (tally keyOf os).1
    have hpw := sortByCountDesc_pairwise (tally keyOf os).1
    have hlen2 : 2 ≤ (sortByCountDesc (tally keyOf os).1).length := by
      rw [hperm.length_eq]
      exact hlen
    rcases hs : sortByCountDesc (tally keyOf os).1 with _ | ⟨e0, _ | ⟨e1, rest⟩⟩
    · rw [hs] at hlen2
      simp at hlen2
    · rw [hs] at hlen2
      simp at hlen2
    rw [hs] at hperm hpw
    rw [List.pairwise_cons] at hpw
    obtain ⟨hpw0, hpw1⟩ := hpw
    have hmem0 : e0 ∈ (tally keyOf os).1 := hperm.subset (List.mem_cons_self _ _)
    have hmem1 : e1 ∈ (tally keyOf os).1 :=
      hperm.subset (List.mem_cons_of_mem _ (List.mem_cons_self _ _))
    have hspec0 := mem_counters_spec keyOf os (k := e0.1) (n := e0.2) hmem0
    have hspec1 := mem_counters_spec keyOf os (k := e1.1) (n := e1.2) hmem1
    have hkmem : (k, keyCount keyOf os k) ∈ e0 :: e1 :: rest :=
      hperm.mem_iff.mpr (counters_mem_of_pos keyOf os hk)
    have he01 : e0.1 = k := by
      by_contra hne
      have hlt0 : keyCount keyOf os e0.1 < keyCount keyOf os k := hmax e0.1 hne
      rcases List.mem_cons.mp hkmem with hcase | hcase
      · exact hne (congrArg Prod.fst hcase).symm
      · have hle := hpw0 _ hcase
        simp only at hle
        have he0c := hspec0.1
        omega
    have hc0 : e0.2 = keyCount keyOf os k := by
      rw [hspec0.1, he01]
    have hnd : ((e0 :: e1 :: rest).map Prod.fst).Nodup :=
      ((hperm.map Prod.fst).nodup_iff).mpr (tally_keys_nodup keyOf os)
    have hne1 : e1.1 ≠ e0.1 := by
      simp only [List.map_cons, List.nodup_cons, List.mem_cons] at hnd
      exact fun hq => hnd.1 (Or.inl hq.symm)
    have hne1k : e1.1 ≠ k := fun hq => hne1 (hq.trans he01.symm)
    have hlt1 : keyCount keyOf os e1.1 < keyCount keyOf os k := hmax e1.1 hne1k
    have htie : ¬ (e0.2 = e1.2) := by
      have := hspec1.1
      omega
    have hsome : (mapGet (tally keyOf os).2 k).isSome :=
      (tally_fetcheds_isSome keyOf os k).mpr hk
    obtain ⟨v, hv⟩ := Option.isSome_iff_exists.mp hsome
    refine ⟨v, ?_, (tally_fetcheds_mem keyOf os hv).1⟩
    simp only [consensusRound]
    rw [if_neg (not_lt.mpr hlen), hs]
    simp only [pickTruth]
    rw [if_neg htie, he01, hv]
  · push_neg at hex
    have huniq : ∀ k1 k2, 0 < keyCount keyOf os k1 → 0 < keyCount keyOf os k2 →
        k1 = k2 := by
      intro k1 k2 h1 h2
      have e1 : k1 = k := by
        by_contra hq
        have := hex k1 hq
        omega
      have e2 : k2 = k := by
        by_contra hq
        have := hex k2 hq
        omega
      rw [e1, e2]
    have hlt := counters_length_lt_two keyOf os huniq
    obtain ⟨w, hwmem, hwk⟩ := exists_mem_of_keyCount_pos keyOf hk
    obtain ⟨v, hv⟩ := promiseAny_ok_of_mem hwmem
    refine ⟨v, ?_, ?_⟩
    · simp only [consensusRound]
      rw [if_pos hlt]
      exact hv
    · have hvmem := promiseAny_ok_mem hv
      have hvpos := keyCount_pos_of_mem keyOf hvmem
      by_contra hq
      have := hex (keyOf v) hq
      omega

theorem consensusRound_tie (keyOf : V → K) {os : List (Settled V ε)} {k1 k2 : K}
    (hne : k1 ≠ k2) (h1 : 0 < keyCount keyOf os k1)
    (heq : keyCount keyOf os k1 = keyCount keyOf os k2)
    (hmax : ∀ kp, keyCount keyOf os kp ≤ keyCount keyOf os k1) :
    consensusRound keyOf os = .error .couldNotChooseTruth := by
  have h2 : 0 < keyCount keyOf os k2 := by omega
  have hlen : 2 ≤ (tally keyOf os).1.length :=
    counters_two_le_length keyOf os hne h1 h2
  have hperm := sortByCountDesc_perm (tally keyOf os).1
  have hpw := sortByCountDesc_pairwise (tally keyOf os).1
  have hlen2 : 2 ≤ (sortByCountDesc (tally keyOf os).1).length := by
    rw [hperm.length_eq]
    exact hlen
  rcases hs : sortByCountDesc (tally keyOf os).1 with _ | ⟨e0, _ | ⟨e1, rest⟩⟩
  · rw [hs] at hlen2
    simp at hlen2
  · rw [hs] at hlen2
    simp at hlen2
  rw [hs] at hperm hpw
  rw [List.pairwise_cons] at hpw
  obtain ⟨hpw0, hpw1⟩ := hpw
  rw [List.pairwise_cons] at hpw1
  obtain ⟨hpw10, _⟩ := hpw1
  have hmem0 : e0 ∈ (tally keyOf os).1 := hperm.subset (List.mem_cons_self _ _)
  have hmem1 : e1 ∈ (tally keyOf os).1 :=
    hperm.subset (List.mem_cons_of_mem _ (List.mem_cons_self _ _))
  have hspec0 := mem_counters_spec keyOf os (k := e0.1) (n := e0.2) hmem0
  have hspec1 := mem_counters_spec keyOf os (k := e1.1) (n := e1.2) hmem1
  have hk1mem : (k1, keyCount keyOf os k1) ∈ e0 :: e1 :: rest :=
    hperm.mem_iff.mpr (counters_mem_of_pos keyOf os h1)
  have hk2mem : (k2, keyCount keyOf os k2) ∈ e0 :: e1 :: rest :=
    hperm.mem_iff.mpr (counters_mem_of_pos keyOf os h2)
  have hb0 : keyCount keyOf os e0.1 ≤ keyCount keyOf os k1 := hmax e0.1
  have hb1 : keyCount keyOf os e1.1 ≤ keyCount keyOf os k1 := hmax e1.1
  have he0ge : keyCount keyOf os k1 ≤ e0.2 := by
    rcases List.mem_cons.mp hk1mem with hc | hc
    · have := congrArg Prod.snd hc
      simp only at this
      omega
    · have := hpw0 _ hc
      simp only at this
      omega
  have hone : ((k1, keyCount keyOf os k1) ∈ e1 :: rest) ∨
      ((k2, keyCount keyOf os k2) ∈ e1 :: rest) := by
    rcases List.mem_cons.mp hk1mem with hc1 | hc1
    · rcases List.mem_cons.mp hk2mem with hc2 | hc2
      · exfalso
        exact hne (congrArg Prod.fst (hc1.trans hc2.symm))
      · exact Or.inr hc2
    · exact Or.inl hc1
  have he1ge : keyCount keyOf os k1 ≤ e1.2 := by
    rcases hone with hc | hc
    · rcases List.mem_cons.mp hc with hc | hc
      · have := congrArg Prod.snd hc
        simp only at this
        omega
      · have := hpw10 _ hc
        simp only at this
        omega
    · rcases List.mem_cons.mp hc with hc | hc
      · have := congrArg Prod.snd hc
        simp only at this
        omega
      · have := hpw10 _ hc
        simp only at this
        omega
  have htie : e0.2 = e1.2 := by
    have ha := hspec0.1
    have hb := hspec1.1
    omega
  simp only [consensusRound]
  rw [if_neg (not_lt.mpr hlen), hs]
  simp only [pickTruth]
  rw [if_pos htie]

theorem consensusRound_ok_char (keyOf : V → K) {os : List (Settled V ε)} {v : V}
    (h : consensusRound keyOf os = .ok v) :
    Settled.fulfilled v ∈ os ∧
      ∀ kp, kp ≠ keyOf v →
        keyCount keyOf os kp < keyCount keyOf os (keyOf v) := by
  simp only [consensusRound] at h
  by_cases hlt : (tally keyOf os).1.length < 2
  · rw [if_pos hlt] at h
    have hmem := promiseAny_ok_mem h
    refine ⟨hmem, ?_⟩
    intro kp hkp
    have hvpos := keyCount_pos_of_mem keyOf hmem
    by_cases hp : 0 < keyCount keyOf os kp
    · exfalso
      have := counters_two_le_length keyOf os hkp hp hvpos
      omega
    · omega
  · rw [if_neg hlt] at h
    push_neg at hlt
    have hperm := sortByCountDesc_perm (tally keyOf os).1
    have hpw := sortByCountDesc_pairwise (tally keyOf os).1
    have hlen2 : 2 ≤ (sortByCountDesc (tally keyOf os).1).length := by
      rw [hperm.length_eq]
      exact hlt
    rcases hs : sortByCountDesc (tally keyOf os).1 with _ | ⟨e0, _ | ⟨e1, rest⟩⟩
    · rw [hs] at hlen2
      simp at hlen2
    · rw [hs] at hlen2
      simp at hlen2
    rw [hs] at hperm hpw h
    rw [List.pairwise_cons] at hpw
    obtain ⟨hpw0, hpw1⟩ := hpw
    rw [List.pairwise_cons] at hpw1
    obtain ⟨hpw10, _⟩ := hpw1
    simp only [pickTruth] at h
    by_cases htie : e0.2 = e1.2
    · rw [if_pos htie] at h
      cases h
    · rw [if_neg htie] at h
      rcases hm : mapGet (tally keyOf os).2 e0.1 with _ | w
      · rw [hm] at h
        cases h
      · rw [hm] at h
        have hwv : w = v := by
          simpa using h
        subst hwv
        obtain ⟨hkey, hosmem⟩ := tally_fetcheds_mem keyOf os hm
        refine ⟨hosmem, ?_⟩
        intro kp hkp
        rw [hkey]
        have hmem0 : e0 ∈ (tally keyOf os).1 := hperm.subset (List.mem_cons_self _ _)
        have hspec0 := mem_counters_spec keyOf os (k := e0.1) (n := e0.2) hmem0
        have he1le : e1.2 ≤ e0.2 := by
          have := hpw0 e1 (List.mem_cons_self _ _)
          exact this
        have he1lt : e1.2 < e0.2 := lt_of_le_of_ne he1le (fun hq => htie hq.symm)
        by_cases hp : 0 < keyCount keyOf os kp
        · have hkpmem : (kp, keyCount keyOf os kp) ∈ e0 :: e1 :: rest :=
            hperm.mem_iff.mpr (counters_mem_of_pos keyOf os hp)
          rcases List.mem_cons.mp hkpmem with hc | hc
          · exfalso
            have hfst : kp = e0.1 := congrArg Prod.fst hc
            exact (hkey ▸ hkp) hfst
          · have hle : keyCount keyOf os kp ≤ e1.2 := by
              rcases List.mem_cons.mp hc with hc | hc
              · have := congrArg Prod.snd hc
                simp only at this
                omega
              · have := hpw10 _ hc
                simp only at this
                omega
            have ha := hspec0.1
            omega
        · have ha := hspec0.1
          have hb := hspec0.2
          omega

end ConsensusLemmas

/-- Classification of one attempt inside the bounded retry loop of the
piscine library as used by content_script/index.ts: succeed with a value,
retry with another candidate, or cancel the whole loop. -/
inductive Looped (V ε : Type) where
  | ok (value : V)
  | retry (reason : ε)
  | cancel (reason : ε)

/-- The candidate-drawing loop of content_script/index.ts lines 436-443 and
452-459: while (true) draw one candidate at random; if the exclusion set
already has it, continue; otherwise add it to the set and break. The draws
list is the stream of values produced by tryGetCryptoRandom; an exhausted
stream models the draw failing, which the code maps to Cancel. -/
def drawUntried {α : Type} [DecidableEq α] :
    List α → List α → Option (α × List α × List α)
  | [], _ => none
  | d :: rest, tried =>
    if d ∈ tried then drawUntried rest tried
    else some (d, tried ++ [d], rest)

/-- Modelled from the spec: the bounded retry skeleton tryLoop comes from
the external piscine package, absent from the repository, so it follows
section 4.2 of the spec (bounded iteration up to a max attempt count; Retry
continues, Cancel and success stop the loop). Each iteration runs the
in-repository selection loop drawUntried against the shared exclusion set
and then the operation on the selected candidate, exactly as
content_script/index.ts lines 432-459 do at the pool level and at the
connection level. The returned triple is the trace of selected candidates,
the final exclusion set, and the result. -/
def tryLoopSelect {α V ε : Type} [DecidableEq α] (op : α → Looped V ε) :
    Nat → List α → List α → List α → List α × List α × Option V
  | 0, _, tried, trace => (trace, tried, none)
  | fuel + 1, draws, tried, trace =>
    match drawUntried draws tried with
    | none => (trace, tried, none)
    | some (c, tried2, draws2) =>
      match op c with
      | .ok v => (trace ++ [c], tried2, some v)
      | .cancel _ => (trace ++ [c], tried2, none)
      | .retry _ => tryLoopSelect op fuel draws2 tried2 (trace ++ [c])

theorem drawUntried_spec {α : Type} [DecidableEq α] :
    ∀ (draws tried : List α) (c : α) (tried2 rest : List α),
      drawUntried draws tried = some (c, tried2, rest) →
      c ∉ tried ∧ tried2 = tried ++ [c] := by
  intro draws
  induction draws with
  | nil =>
    intro tried c t2 r h
    cases h
  | cons d drest ih =>
    intro tried c t2 r h
    simp only [drawUntried] at h
    by_cases hd : d ∈ tried
    · rw [if_pos hd] at h
      exact ih _ _ _ _ h
    · rw [if_neg hd] at h
      cases h
      exact ⟨hd, rfl⟩

theorem tryLoopSelect_delta {α V ε : Type} [DecidableEq α] (op : α → Looped V ε) :
    ∀ (fuel : Nat) (draws tried trace : List α),
      ∃ delta : List α,
        (tryLoopSelect op fuel draws tried trace).1 = trace ++ delta ∧
        (tryLoopSelect op fuel draws tried trace).2.1 = tried ++ delta ∧
        (∀ a ∈ delta, a ∉ tried) ∧ delta.Nodup := by
  intro fuel
  induction fuel with
  | zero =>
    intro draws tried trace
    exact ⟨[], by simp [tryLoopSelect], by simp [tryLoopSelect], by simp, List.nodup_nil⟩
  | succ fuel ih =>
    intro draws tried trace
    rcases hd : drawUntried draws tried with _ | ⟨c, tried2, draws2⟩
    · exact ⟨[], by simp [tryLoopSelect, hd], by simp [tryLoopSelect, hd], by simp,
        List.nodup_nil⟩
    · obtain ⟨hnotin, htried2⟩ := drawUntried_spec _ _ _ _ _ hd
      rcases hop : op c with v | e | e
      · refine ⟨[c], ?_, ?_, by simpa using hnotin, List.nodup_singleton c⟩
        · simp [tryLoopSelect, hd, hop]
        · simp [tryLoopSelect, hd, hop, htried2]
      · obtain ⟨delta, h1, h2, h3, h4⟩ := ih draws2 tried2 (trace ++ [c])
        refine ⟨c :: delta, ?_, ?_, ?_, ?_⟩
        · have : (tryLoopSelect op (fuel + 1) draws tried trace).1 =
              (tryLoopSelect op fuel draws2 tried2 (trace ++ [c])).1 := by
            simp [tryLoopSelect, hd, hop]
          rw [this, h1]
          simp
        · have : (tryLoopSelect op (fuel + 1) draws tried trace).2.1 =
              (tryLoopSelect op fuel draws2 tried2 (trace ++ [c])).2.1 := by
            simp [tryLoopSelect, hd, hop]
          rw [this, h2, htried2]
          simp
        · intro a ha
          rcases List.mem_cons.mp ha with ha | ha
          · subst ha
            exact hnotin
          · have := h3 a ha
            rw [htried2] at this
            intro hmem
            exact this (List.mem_append.mpr (Or.inl hmem))
        · rw [List.nodup_cons]
          refine ⟨?_, h4⟩
          intro hc
          have := h3 c hc
          rw [htried2] at this
          exact this (List.mem_append.mpr (Or.inr (List.mem_singleton_self c)))
      · refine ⟨[c], ?_, ?_, by simpa using hnotin, List.nodup_singleton c⟩
        · simp [tryLoopSelect, hd, hop]
        · simp [tryLoopSelect, hd, hop, htried2]

theorem promiseAny_middle_rejected {V ε : Type} (e : ε) :
    ∀ (l1 l2 : List (Settled V ε)),
      promiseAny (l1 ++ Settled.rejected e :: l2) = promiseAny (l1 ++ l2) := by
  intro l1 l2
  induction l1 with
  | nil => simp [promiseAny]
  | cons o l1 ih =>
    cases o with
    | fulfilled v => simp [promiseAny]
    | rejected f => simpa [promiseAny] using ih

/-- C1: for every outcome multiset containing at least two distinct
successful payloads in which one payload's occurrence count is strictly
greater than every other payload's count, the consensus resolver (one
consensusRound, the tally-and-vote logic applied identically at the
intra-circuit and inter-circuit level of tryEthereumFetch) returns that
strictly most frequent payload, identified by its canonical key, as the
trusted answer. -/
theorem claim_C1_strict_plurality {V K ε : Type} [DecidableEq K] (keyOf : V → K)
    (os : List (Settled V ε)) (k : K)
    (hk : 0 < keyCount keyOf os k)
    (hmax : ∀ kp, kp ≠ k → keyCount keyOf os kp < keyCount keyOf os k)
    (_htwo : ∃ kp, kp ≠ k ∧ 0 < keyCount keyOf os kp) :
    ∃ v, consensusRound keyOf os = .ok v ∧ keyOf v = k :=
  consensusRound_ok_of_strict_max keyOf hk hmax

/-- Witness for C1 at the 3-and-2 tally of the spec: payloads true (three
votes) and false (two votes); the resolver returns true. -/
theorem claim_C1_witness :
    ∃ v, consensusRound (fun b : Bool => b)
        ([.fulfilled true, .fulfilled true, .fulfilled true, .fulfilled false,
          .fulfilled false] : List (Settled Bool Unit)) = .ok v ∧ v = true :=
  claim_C1_strict_plurality (fun b : Bool => b)
    [.fulfilled true, .fulfilled true, .fulfilled true, .fulfilled false,
      .fulfilled false] true (by decide) (by decide) ⟨false, by decide⟩

/-- C2: for every outcome multiset with at least two distinct payloads
whose two highest occurrence counts are equal (some two distinct keys share
the maximal positive count), the consensus resolver fails with the
ambiguous-consensus error and returns no payload. -/
theorem claim_C2_tie_ambiguous {V K ε : Type} [DecidableEq K] (keyOf : V → K)
    (os : List (Settled V ε)) (k1 k2 : K) (hne : k1 ≠ k2)
    (h1 : 0 < keyCount keyOf os k1)
    (heq : keyCount keyOf os k1 = keyCount keyOf os k2)
    (hmax : ∀ kp, keyCount keyOf os kp ≤ keyCount keyOf os k1) :
    consensusRound keyOf os = .error .couldNotChooseTruth :=
  consensusRound_tie keyOf hne h1 heq hmax

/-- Witness for C2 at the 3-and-3 tally of the spec: payloads true and
false with three votes each; the resolver throws could-not-choose-truth. -/
theorem claim_C2_witness :
    consensusRound (fun b : Bool => b)
      ([.fulfilled true, .fulfilled true, .fulfilled true, .fulfilled false,
        .fulfilled false, .fulfilled false] : List (Settled Bool Unit)) =
      .error .couldNotChooseTruth :=
  claim_C2_tie_ambiguous (fun b : Bool => b)
    [.fulfilled true, .fulfilled true, .fulfilled true, .fulfilled false,
      .fulfilled false, .fulfilled false] true false (by decide) (by decide)
    (by decide) (by decide)

/-- C3: in each consensus round a Failure outcome (a rejected promise) never
contributes a vote and is never returned: deleting any rejected outcome
leaves the round's result unchanged, and an accepted payload always comes
from a fulfilled outcome of the round's input. -/
theorem claim_C3_failures_no_votes {V K ε : Type} [DecidableEq K] (keyOf : V → K) :
    (∀ (l1 : List (Settled V ε)) (e : ε) (l2 : List (Settled V ε)),
      consensusRound keyOf (l1 ++ Settled.rejected e :: l2) =
        consensusRound keyOf (l1 ++ l2)) ∧
    (∀ (os : List (Settled V ε)) (v : V),
      consensusRound keyOf os = .ok v → Settled.fulfilled v ∈ os) := by
  constructor
  · intro l1 e l2
    have ht : tally keyOf (l1 ++ Settled.rejected e :: l2) =
        tally keyOf (l1 ++ l2) := by
      simp [tally, List.foldl_append, tallyStep]
    have hkc : ∀ k, keyCount keyOf (l1 ++ Settled.rejected e :: l2) k =
        keyCount keyOf (l1 ++ l2) k := by
      intro k
      rw [keyCount_append, keyCount_append]
      have : keyCount keyOf (Settled.rejected e :: l2) k = keyCount keyOf l2 k := by
        have h2 : (Settled.rejected e :: l2) = [Settled.rejected e] ++ l2 := rfl
        rw [h2, keyCount_append, keyCount_single_rejected]
        omega
      omega
    simp only [consensusRound, ht, promiseAny_middle_rejected]
  · intro os v h
    exact (consensusRound_ok_char keyOf h).1

/-- Witness for C3: deleting the rejected outcome between two fulfilled true
outcomes changes nothing, and the accepted payload of a concrete round is a
fulfilled member of its input. -/
theorem claim_C3_witness :
    consensusRound (fun b : Bool => b)
        (([Settled.fulfilled true] ++ Settled.rejected () ::
          [Settled.fulfilled true]) : List (Settled Bool Unit)) =
      consensusRound (fun b : Bool => b)
        (([Settled.fulfilled true] ++ [Settled.fulfilled true]) :
          List (Settled Bool Unit)) ∧
    Settled.fulfilled true ∈
      ([Settled.rejected (), Settled.fulfilled true] : List (Settled Bool Unit)) :=
  ⟨(claim_C3_failures_no_votes (fun b : Bool => b)).1 [Settled.fulfilled true] ()
      [Settled.fulfilled true],
    (claim_C3_failures_no_votes (fun b : Bool => b)).2
      [Settled.rejected (), Settled.fulfilled true] true rfl⟩

/-- C4: for every outcome multiset in which exactly one distinct canonical
payload survives, whatever its occurrence count (positive, all other keys
absent), the consensus resolver returns that payload as the trusted
answer. -/
theorem claim_C4_single_distinct {V K ε : Type} [DecidableEq K] (keyOf : V → K)
    (os : List (Settled V ε)) (k : K)
    (hk : 0 < keyCount keyOf os k)
    (huniq : ∀ kp, kp ≠ k → keyCount keyOf os kp = 0) :
    ∃ v, consensusRound keyOf os = .ok v ∧ keyOf v = k := by
  apply consensusRound_ok_of_strict_max keyOf hk
  intro kp hkp
  rw [huniq kp hkp]
  exact hk

/-- Witness for C4: one rejected outcome plus two fulfilled true outcomes;
the resolver returns true. -/
theorem claim_C4_witness :
    ∃ v, consensusRound (fun b : Bool => b)
        ([.rejected (), .fulfilled true, .fulfilled true] :
          List (Settled Bool Unit)) = .ok v ∧ v = true :=
  claim_C4_single_distinct (fun b : Bool => b)
    [.rejected (), .fulfilled true, .fulfilled true] true (by decide) (by decide)

/-- C5: for every outcome multiset in which zero payloads survive (every
candidate rejected), the consensus resolver fails with the AggregateError
of Promise.any, the no-responses failure, rather than returning a
payload. -/
theorem claim_C5_no_responses {V K ε : Type} [DecidableEq K] (keyOf : V → K)
    (os : List (Settled V ε))
    (h : ∀ o ∈ os, ∃ e, o = Settled.rejected e) :
    consensusRound keyOf os = .error .aggregateError :=
  consensusRound_all_rejected keyOf h

/-- Witness for C5: two rejected outcomes produce the aggregate error. -/
theorem claim_C5_witness :
    consensusRound (fun b : Bool => b)
      ([.rejected (), .rejected ()] : List (Settled Bool Unit)) =
      .error .aggregateError :=
  claim_C5_no_responses (fun b : Bool => b) [.rejected (), .rejected ()]
    (by decide)

/-- Payload alphabet of the worked scenario of the spec: P1 and P2. -/
inductive Payload where
  | P1
  | P2
deriving DecidableEq

/-- Circuit A of the worked scenario: two connections, both returning P1. -/
def circuitA : ConnPool Payload Unit :=
  ⟨2, fun _ => .fulfilled .P1⟩

/-- Circuit B of the worked scenario: two connections returning P1 and
P2. -/
def circuitB : ConnPool Payload Unit :=
  ⟨2, fun i => if i = 0 then .fulfilled .P1 else .fulfilled .P2⟩

/-- The directory entry of the worked scenario: one chain with the two
circuits A and B. -/
def scenarioEntry : EthBrumeEntry Payload Unit :=
  ⟨2, fun i => if i = 0 then .ok circuitA else .ok circuitB⟩

/-- C6: in the spec's worked scenario (a chain with two circuits of two
connections each, circuit A's connections both returning P1, circuit B's
connections returning P1 and P2), the two-level fetch resolves circuit A to
P1, resolves circuit B to the ambiguous-consensus failure, and returns P1
as the final trusted result. -/
theorem claim_C6_worked_scenario :
    runWithPoolOrThrow (fun p : Payload => p) scenarioEntry 0 = .ok .P1 ∧
    runWithPoolOrThrow (fun p : Payload => p) scenarioEntry 1 =
      .error (Sum.inr .couldNotChooseTruth) ∧
    tryEthereumFetch (fun p : Payload => p) (some scenarioEntry) = .ok .P1 :=
  ⟨rfl, rfl, rfl⟩

/-- C7: a missing directory entry fails with the no-circuits error without
consulting any transport, and a present entry fans out over the full
declared capacity at both levels: the inter-circuit consensus input lists
one settled pool outcome per index below the directory capacity, and each
circuit's consensus input lists one settled connection outcome per index
below that pool's capacity, never a sampled subset. -/
theorem claim_C7_full_fanout {V K ε : Type} [DecidableEq K] (keyOf : V → K) :
    (tryEthereumFetch keyOf (none : Option (EthBrumeEntry V ε)) =
      .err .noCircuits) ∧
    (∀ entry : EthBrumeEntry V ε,
      (interCircuitInputs keyOf entry).length = entry.capacity ∧
      ∀ i, i < entry.capacity →
        (interCircuitInputs keyOf entry).get? i =
          some (settleOfExcept (runWithPoolOrThrow keyOf entry i))) ∧
    (∀ pool : ConnPool V ε,
      (intraCircuitInputs pool).length = pool.capacity ∧
      ∀ i, i < pool.capacity →
        (intraCircuitInputs pool).get? i = some (pool.connOutcome i)) := by
  refine ⟨rfl, ?_, ?_⟩
  · intro entry
    refine ⟨by simp [interCircuitInputs], ?_⟩
    intro i hi
    simp [interCircuitInputs, List.get?_map, List.get?_range, hi]
  · intro pool
    refine ⟨by simp [intraCircuitInputs], ?_⟩
    intro i hi
    simp [intraCircuitInputs, List.get?_map, List.get?_range, hi]

/-- Witness for C7 at a one-pool directory entry whose slot access fails:
index zero of the inter-circuit inputs is the settled outcome of pool
zero. -/
theorem claim_C7_witness :
    (interCircuitInputs (fun b : Bool => b)
        (⟨1, fun _ => Except.error ()⟩ : EthBrumeEntry Bool Unit)).get? 0 =
      some (settleOfExcept (runWithPoolOrThrow (fun b : Bool => b)
        (⟨1, fun _ => Except.error ()⟩ : EthBrumeEntry Bool Unit) 0)) :=
  ((claim_C7_full_fanout (fun b : Bool => b)).2.1
    (⟨1, fun _ => Except.error ()⟩ : EthBrumeEntry Bool Unit)).2 0 (by decide)

/-- C8: within one call of the exclusion-based retry loop, the same
candidate is never selected twice: the selection trace has no duplicates,
the final exclusion set is exactly the selection trace (it only ever grew
by the selected candidates), and every successful draw picks a candidate
outside the exclusion set and extends the set by exactly that candidate. -/
theorem claim_C8_no_reselection {α V ε : Type} [DecidableEq α]
    (op : α → Looped V ε) (fuel : Nat) (draws : List α) :
    (tryLoopSelect op fuel draws [] []).1.Nodup ∧
    (tryLoopSelect op fuel draws [] []).2.1 =
      (tryLoopSelect op fuel draws [] []).1 ∧
    (∀ (draws0 tried : List α) (c : α) (tried2 rest : List α),
      drawUntried draws0 tried = some (c, tried2, rest) →
      c ∉ tried ∧ tried2 = tried ++ [c]) := by
  obtain ⟨delta, h1, h2, h3, h4⟩ := tryLoopSelect_delta op fuel draws [] []
  simp only [List.nil_append] at h1 h2
  refine ⟨?_, ?_, ?_⟩
  · rw [h1]
    exact h4
  · rw [h1, h2]
  · intro draws0 tried c tried2 rest h
    exact drawUntried_spec draws0 tried c tried2 rest h

/-- Witness for C8: a concrete run over candidate pool indices, and a
concrete draw that skips the already tried candidate 1 and then extends the
exclusion set with the fresh candidate 0. -/
theorem claim_C8_witness :
    (tryLoopSelect (fun _ : Nat => (Looped.retry () : Looped Unit Unit)) 3
        [0, 1, 0, 2] [] []).1.Nodup ∧
    ((0 : Nat) ∉ ([1] : List Nat) ∧ ([1, 0] : List Nat) = [1] ++ [0]) :=
  ⟨(claim_C8_no_reselection (fun _ : Nat => (Looped.retry () : Looped Unit Unit))
      3 [0, 1, 0, 2]).1,
    (claim_C8_no_reselection (fun _ : Nat => (Looped.retry () : Looped Unit Unit))
      3 [0, 1, 0, 2]).2.2 [1, 0] [1] 0 [1, 0] [] rfl⟩

/-- C9: the result of one consensus round is order-independent: permuting
the settled outcomes never changes whether the round succeeds, and any two
accepted payloads of permuted inputs carry the same canonical key — the
resolver is a pure function of the multiset of payloads up to canonical
serialization. -/
theorem claim_C9_order_independent {V K ε : Type} [DecidableEq K] (keyOf : V → K)
    (os1 os2 : List (Settled V ε)) (hperm : os1.Perm os2) :
    ((∃ v, consensusRound keyOf os1 = .ok v) ↔
      (∃ v, consensusRound keyOf os2 = .ok v)) ∧
    (∀ v1 v2, consensusRound keyOf os1 = .ok v1 →
      consensusRound keyOf os2 = .ok v2 → keyOf v1 = keyOf v2) := by
  have step : ∀ (a b : List (Settled V ε)), a.Perm b →
      (∃ v, consensusRound keyOf a = .ok v) →
      ∃ v, consensusRound keyOf b = .ok v := by
    intro a b hp hex
    obtain ⟨v, hv⟩ := hex
    obtain ⟨hmem, hmax⟩ := consensusRound_ok_char keyOf hv
    have hpos : 0 < keyCount keyOf b (keyOf v) := by
      rw [← keyCount_perm keyOf hp]
      exact keyCount_pos_of_mem keyOf hmem
    obtain ⟨w, hw, _⟩ := consensusRound_ok_of_strict_max keyOf hpos
      (fun kp hkp => by
        rw [← keyCount_perm keyOf hp, ← keyCount_perm keyOf hp]
        exact hmax kp hkp)
    exact ⟨w, hw⟩
  refine ⟨⟨step os1 os2 hperm, step os2 os1 hperm.symm⟩, ?_⟩
  intro v1 v2 h1 h2
  obtain ⟨hmem1, hmax1⟩ := consensusRound_ok_char keyOf h1
  obtain ⟨hmem2, hmax2⟩ := consensusRound_ok_char keyOf h2
  by_contra hne
  have ha := hmax1 (keyOf v2) (fun hq => hne hq.symm)
  have hb := hmax2 (keyOf v1) hne
  rw [← keyCount_perm keyOf hperm (keyOf v1),
    ← keyCount_perm keyOf hperm (keyOf v2)] at hb
  omega

/-- Witness for C9 at a concrete permutation: reversing a list holding two
true votes, one false vote and a rejection preserves success, and the two
accepted payloads agree. -/
theorem claim_C9_witness :
    ((∃ v, consensusRound (fun b : Bool => b)
        ([.fulfilled true, .rejected (), .fulfilled false, .fulfilled true] :
          List (Settled Bool Unit)) = .ok v) ↔
      (∃ v, consensusRound (fun b : Bool => b)
        ([.fulfilled true, .fulfilled false, .rejected (), .fulfilled true] :
          List (Settled Bool Unit)) = .ok v)) ∧
    (∀ v1 v2, consensusRound (fun b : Bool => b)
        ([.fulfilled true, .rejected (), .fulfilled false, .fulfilled true] :
          List (Settled Bool Unit)) = .ok v1 →
      consensusRound (fun b : Bool => b)
        ([.fulfilled true, .fulfilled false, .rejected (), .fulfilled true] :
          List (Settled Bool Unit)) = .ok v2 → v1 = v2) :=
  claim_C9_order_independent (fun b : Bool => b)
    [.fulfilled true, .rejected (), .fulfilled false, .fulfilled true]
    [.fulfilled true, .fulfilled false, .rejected (), .fulfilled true]
    (by decide)

/-- C10: the public operation tryEthereumFetch always returns a Result: for
every directory entry shape and every pattern of pool and connection
outcomes, the result is an Ok or an Err, a missing directory entry yields
the no-circuits Err, and every failure of the inner orThrow body surfaced
by runAndDoubleWrap becomes the Err branch while every success becomes the
Ok branch. -/
theorem claim_C10_total_result {V K ε : Type} [DecidableEq K] (keyOf : V → K)
    (entry : Option (EthBrumeEntry V ε)) :
    ((∃ v, tryEthereumFetch keyOf entry = .ok v) ∨
      (∃ e, tryEthereumFetch keyOf entry = .err e)) ∧
    (entry = none → tryEthereumFetch keyOf entry = .err .noCircuits) ∧
    (∀ e, tryEthereumFetchOrThrow keyOf entry = .error e →
      tryEthereumFetch keyOf entry = .err e) ∧
    (∀ v, tryEthereumFetchOrThrow keyOf entry = .ok v →
      tryEthereumFetch keyOf entry = .ok v) := by
  refine ⟨?_, ?_, ?_, ?_⟩
  · cases h : tryEthereumFetchOrThrow keyOf entry with
    | error e =>
      exact Or.inr ⟨e, by simp [tryEthereumFetch, runAndDoubleWrap, h]⟩
    | ok v =>
      exact Or.inl ⟨v, by simp [tryEthereumFetch, runAndDoubleWrap, h]⟩
  · rintro rfl
    rfl
  · intro e he
    simp [tryEthereumFetch, runAndDoubleWrap, he]
  · intro v hv
    simp [tryEthereumFetch, runAndDoubleWrap, hv]

/-- Witness for C10 at the missing directory entry: the fetch returns the
no-circuits Err. -/
theorem claim_C10_witness :
    tryEthereumFetch (fun b : Bool => b)
      (none : Option (EthBrumeEntry Bool Unit)) = .err .noCircuits :=
  (claim_C10_total_result (fun b : Bool => b)
    (none : Option (EthBrumeEntry Bool Unit))).2.1 rfl

end Wallet
